import Mathlib

/-!
# Verification of the BUMP utility library (`src/utils.py`)

The library consists of two numeric helpers over in-memory arrays:

* `zScore X dim` : `(X - np.nanmean(X, dim, keepdims=True)) /
                    (np.nanstd(X, dim, keepdims=True) + 1e-7)`,
  with a pandas `DataFrame` first converted to a plain array via `to_numpy`;
* `moving_average X w` : `np.convolve(X, np.ones(w), 'valid') / w`.

We embed the numerics over the reals.  A float value that may be the NaN
sentinel is modelled as `Option ℝ`, with `none` playing the role of NaN:
arithmetic propagates `none`, while the nan-aware reductions `nanmean` /
`nanstd` skip `none` entries (and return `none` on an all-missing slice,
as numpy's `nanmean` / `nanstd` do).

An N-dimensional array is normalized fiberwise: `nanmean(X, dim,
keepdims=True)` followed by broadcasting uses, at every position, the
statistics of the 1-D fiber through that position along axis `dim`.  We
model the representative 2-D case faithfully: an array is a function
`Fin m → Fin n → Option ℝ`, axis 0 fibers are columns, axis 1 fibers are
rows, and every statement about "the mean/std along axis `d`" is a
statement about the fibers of the result along `d`.
-/

namespace BUMP

noncomputable section

/-- A floating-point value that may be the NaN sentinel: `none` is NaN. -/
abbrev RVal := Option ℝ

/-- NaN-propagating addition: `NaN + x = x + NaN = NaN`. -/
def nadd : RVal → RVal → RVal
  | some a, some b => some (a + b)
  | _, _ => none

/-- NaN-propagating subtraction. -/
def nsub : RVal → RVal → RVal
  | some a, some b => some (a - b)
  | _, _ => none

/-- NaN-propagating division. -/
def ndiv : RVal → RVal → RVal
  | some a, some b => some (a / b)
  | _, _ => none

/-- Sum of a list of possibly-NaN values; any NaN poisons the sum
(this is the behaviour of `np.convolve`'s plain sums, not of `nansum`). -/
def nsum (xs : List RVal) : RVal := xs.foldr nadd (some 0)

/-- The non-missing (non-NaN) entries of a slice, in order. -/
def notMissing (xs : List RVal) : List ℝ := xs.filterMap id

/-- Arithmetic mean of a plain list of reals (`sum / length`). -/
def listMean (l : List ℝ) : ℝ := l.sum / l.length

/-- Population variance (`ddof = 0`, numpy's default) of a plain list. -/
def listVar (l : List ℝ) : ℝ :=
  (l.map (fun x => (x - listMean l) ^ 2)).sum / l.length

/-- Model of `np.nanmean` on a 1-D slice: mean of the non-missing entries; NaN
(with a runtime warning) when every entry is missing. -/
def nanmean (xs : List RVal) : RVal :=
  if notMissing xs = [] then none else some (listMean (notMissing xs))

/-- Model of `np.nanstd` on a 1-D slice: population standard deviation of the
non-missing entries; NaN when every entry is missing. -/
def nanstd (xs : List RVal) : RVal :=
  if notMissing xs = [] then none else some (Real.sqrt (listVar (notMissing xs)))

/-- The `1e-7` guard added to the standard deviation before dividing. -/
def eps : ℝ := 1e-7

/-- Column `j` of a 2-D array: its fiber along axis 0. -/
def colList {m n : ℕ} (X : Fin m → Fin n → RVal) (j : Fin n) : List RVal :=
  (List.finRange m).map fun i => X i j

/-- Row `i` of a 2-D array: its fiber along axis 1. -/
def rowList {m n : ℕ} (X : Fin m → Fin n → RVal) (i : Fin m) : List RVal :=
  (List.finRange n).map fun j => X i j

/-- The fiber of `X` along axis `dim` passing through position `(i, j)`.
`nanmean(X, dim, keepdims=True)` broadcast back against `X` places, at
position `(i, j)`, exactly the statistic of this fiber. -/
def fiberAt {m n : ℕ} (X : Fin m → Fin n → RVal) (dim : ℕ)
    (i : Fin m) (j : Fin n) : List RVal :=
  if dim = 0 then colList X j else rowList X i

/-- The pointwise normalization `(x - nanmean v) / (nanstd v + 1e-7)`
applied to one value `x` whose fiber along the chosen axis is `v`. -/
def normFun (v : List RVal) (x : RVal) : RVal :=
  ndiv (nsub x (nanmean v)) (nadd (nanstd v) (some eps))

/-- The arithmetic core of `zScore` on a plain 2-D array:
`(X - np.nanmean(X, dim, keepdims=True)) / (np.nanstd(X, dim, keepdims=True) + 1e-7)`;
after broadcasting, the entry at `(i, j)` is `X i j` normalized by the
statistics of its own fiber along axis `dim`. -/
def zScoreArr {m n : ℕ} (X : Fin m → Fin n → RVal) (dim : ℕ := 0) :
    Fin m → Fin n → RVal :=
  fun i j => normFun (fiberAt X dim i j) (X i j)

/-- A pandas `DataFrame`: named columns over a 2-D block of values. -/
structure DataFrame (m n : ℕ) where
  columns : Fin n → String
  values : Fin m → Fin n → RVal

/-- Model of `DataFrame.to_numpy`: the plain 2-D array of values, labels dropped. -/
def DataFrame.to_numpy {m n : ℕ} (df : DataFrame m n) : Fin m → Fin n → RVal :=
  df.values

/-- The two kinds of input `zScore` accepts: a pandas `DataFrame` or a
plain numpy array (here, 2-D). -/
inductive PyInput (m n : ℕ) where
  | dataframe : DataFrame m n → PyInput m n
  | ndarray : (Fin m → Fin n → RVal) → PyInput m n

/-- Model of `zScore` from `src/utils.py`: if the input is a `DataFrame`, convert
it with `to_numpy` first; then subtract the nan-mean and divide by the
nan-std plus `1e-7`.  The result is always a plain array. -/
def zScore {m n : ℕ} (X : PyInput m n) (dim : ℕ := 0) : Fin m → Fin n → RVal :=
  match X with
  | .dataframe df => zScoreArr df.to_numpy dim
  | .ndarray A => zScoreArr A dim

/-- Model of `np.convolve(X, np.ones(w), 'valid')` for a 1-D signal `X`.  In
valid mode the output has `max(len X, w) - min(len X, w) + 1` entries,
each the sum of the `min(len X, w)` signal values overlapping the fully
contained kernel window.  (numpy raises for `w = 0` or `X = []`; the
claims below only concern `1 ≤ w ≤ len X`.) -/
def convolve_valid (X : List RVal) (w : ℕ) : List RVal :=
  if w ≤ X.length then
    (List.range (X.length - w + 1)).map fun i => nsum ((X.drop i).take w)
  else
    (List.range (w - X.length + 1)).map fun _ => nsum X

/-- Model of `moving_average` from `src/utils.py`:
`np.convolve(X, np.ones(w), 'valid') / w`. -/
def moving_average (X : List RVal) (w : ℕ) : List RVal :=
  (convolve_valid X w).map fun s => ndiv s (some (w : ℝ))

/-- A slice (or array) with no missing entries. -/
def NoMissing (xs : List RVal) : Prop := ∀ x ∈ xs, x ≠ none

/-- Pointwise translation `X + c` of an array by a scalar (numpy
broadcasting); NaN entries stay NaN. -/
def addConst {m n : ℕ} (X : Fin m → Fin n → RVal) (c : ℝ) :
    Fin m → Fin n → RVal :=
  fun i j => nadd (X i j) (some c)

/-- The spec's claim, as stated: on any 2-D array with no missing values
and any in-range axis, every fiber of the normalized output along that
axis has mean within `1e-7` of `0` and standard deviation within `1e-7`
of `1`. -/
def meanStdWithinEpsClaim : Prop :=
  ∀ (m n : ℕ) (X : Fin m → Fin n → RVal) (d : ℕ), d < 2 →
    (∀ i j, X i j ≠ none) →
    ∀ (i : Fin m) (j : Fin n),
      ∃ μ s, nanmean (fiberAt (zScoreArr X d) d i j) = some μ ∧
        nanstd (fiberAt (zScoreArr X d) d i j) = some s ∧
        |μ| ≤ eps ∧ |s - 1| ≤ eps

/-- The spec's idempotence claim, as stated: if every fiber of `X` along
an in-range axis `d` already has mean `0` and standard deviation `1`,
then `zScore` returns `X` back, each entry within `1e-7` of the input
entry. -/
def idempotentWithinEpsClaim : Prop :=
  ∀ (m n : ℕ) (X : Fin m → Fin n → RVal) (d : ℕ), d < 2 →
    (∀ i j, nanmean (fiberAt X d i j) = some 0 ∧
            nanstd (fiberAt X d i j) = some 1) →
    ∀ (i : Fin m) (j : Fin n) (a : ℝ), X i j = some a →
      ∃ b, zScoreArr X d i j = some b ∧ |b - a| ≤ eps

/-- A 2×1 array whose single column is `[-1e-7, 1e-7]`: a no-missing
input with a tiny standard deviation. -/
def tinyArr : Fin 2 → Fin 1 → RVal :=
  fun i _ => if i.val = 0 then some (-eps) else some eps

/-- A 5×1 array whose single column is `[2, -1/2, -1/2, -1/2, -1/2]`:
it has mean `0` and standard deviation exactly `1`, with an entry of
magnitude greater than `1`. -/
def spikeArr : Fin 5 → Fin 1 → RVal :=
  fun i _ => if i.val = 0 then some 2 else some (-(1 / 2))

/-- A 2×1 array whose single column is `[-1, 1]`: mean `0`, standard
deviation exactly `1`. -/
def unitArr : Fin 2 → Fin 1 → RVal :=
  fun i _ => if i.val = 0 then some (-1) else some 1

/-- A 2×1 array with a missing entry: its column is `[NaN, 5]`. -/
def missingArr : Fin 2 → Fin 1 → RVal :=
  fun i _ => if i.val = 0 then none else some 5

/-- A 2×2 array all of whose entries are `3`. -/
def constArr : Fin 2 → Fin 2 → RVal := fun _ _ => some 3

/-! ## Basic lemmas about the NaN-propagating arithmetic -/

@[simp] lemma nadd_some_some (a b : ℝ) : nadd (some a) (some b) = some (a + b) := rfl

@[simp] lemma nsub_some_some (a b : ℝ) : nsub (some a) (some b) = some (a - b) := rfl

@[simp] lemma ndiv_some_some (a b : ℝ) : ndiv (some a) (some b) = some (a / b) := rfl

@[simp] lemma nadd_none_left (y : RVal) : nadd none y = none := by cases y <;> rfl

@[simp] lemma nadd_none_right (x : RVal) : nadd x none = none := by cases x <;> rfl

@[simp] lemma nsub_none_left (y : RVal) : nsub none y = none := by cases y <;> rfl

@[simp] lemma nsub_none_right (x : RVal) : nsub x none = none := by cases x <;> rfl

@[simp] lemma ndiv_none_left (y : RVal) : ndiv none y = none := by cases y <;> rfl

@[simp] lemma ndiv_none_right (x : RVal) : ndiv x none = none := by cases x <;> rfl

@[simp] lemma nsum_nil : nsum [] = some 0 := rfl

@[simp] lemma nsum_cons (x : RVal) (xs : List RVal) :
    nsum (x :: xs) = nadd x (nsum xs) := rfl

lemma nsum_map_some (l : List ℝ) : nsum (l.map some) = some l.sum := by
  induction l with
  | nil => simp
  | cons x xs ih => simp [ih]

lemma nsum_eq_none_of_mem (xs : List RVal) (h : none ∈ xs) : nsum xs = none := by
  induction xs with
  | nil => cases h
  | cons x xs ih =>
    rcases List.mem_cons.mp h with h | h
    · rw [nsum_cons, ← h, nadd_none_left]
    · rw [nsum_cons, ih h, nadd_none_right]

/-! ## The smoother -/

/-- In the in-range regime `w ≤ len X`, the convolution-based smoother is
the list of window sums divided by `w`. -/
lemma moving_average_eq (X : List RVal) (w : ℕ) (h2 : w ≤ X.length) :
    moving_average X w = (List.range (X.length - w + 1)).map
      (fun i => ndiv (nsum ((X.drop i).take w)) (some (w : ℝ))) := by
  simp only [moving_average, convolve_valid, if_pos h2, List.map_map]
  rfl

/-! ## Fibers -/

lemma mem_fiberAt_self {m n : ℕ} (X : Fin m → Fin n → RVal) (d : ℕ)
    (i : Fin m) (j : Fin n) : X i j ∈ fiberAt X d i j := by
  unfold fiberAt colList rowList
  split
  · exact List.mem_map.mpr ⟨i, List.mem_finRange i, rfl⟩
  · exact List.mem_map.mpr ⟨j, List.mem_finRange j, rfl⟩

lemma mem_fiberAt {m n : ℕ} {X : Fin m → Fin n → RVal} {d : ℕ}
    {i : Fin m} {j : Fin n} {y : RVal} (hy : y ∈ fiberAt X d i j) :
    ∃ i' j', y = X i' j' := by
  unfold fiberAt colList rowList at hy
  split at hy
  · obtain ⟨i', _, rfl⟩ := List.mem_map.mp hy
    exact ⟨i', j, rfl⟩
  · obtain ⟨j', _, rfl⟩ := List.mem_map.mp hy
    exact ⟨i, j', rfl⟩

/-- The fiber of the normalized array is the pointwise normalization of
the corresponding fiber of the input: this is exactly what
`keepdims=True` plus broadcasting achieves.  (Both branches of `fiberAt`
are covered, so this holds for every axis index `d`.) -/
lemma fiberAt_zScoreArr {m n : ℕ} (X : Fin m → Fin n → RVal) (d : ℕ)
    (i : Fin m) (j : Fin n) :
    fiberAt (zScoreArr X d) d i j =
      (fiberAt X d i j).map (normFun (fiberAt X d i j)) := by
  rcases eq_or_ne d 0 with h | h <;>
    simp [fiberAt, h, zScoreArr, colList, rowList, List.map_map, Function.comp]

/-- Mapping an entrywise function over the array maps it over each fiber. -/
lemma fiberAt_entrywise {m n : ℕ} (X : Fin m → Fin n → RVal)
    (f : RVal → RVal) (d : ℕ) (i : Fin m) (j : Fin n) :
    fiberAt (fun i' j' => f (X i' j')) d i j = (fiberAt X d i j).map f := by
  rcases eq_or_ne d 0 with h | h <;>
    simp [fiberAt, h, colList, rowList, List.map_map, Function.comp]

/-! ## Missing-value bookkeeping -/

@[simp] lemma notMissing_nil : notMissing [] = [] := rfl

@[simp] lemma notMissing_cons_some (a : ℝ) (xs : List RVal) :
    notMissing (some a :: xs) = a :: notMissing xs := rfl

@[simp] lemma notMissing_cons_none (xs : List RVal) :
    notMissing (none :: xs) = notMissing xs := rfl

@[simp] lemma notMissing_map_some (V : List ℝ) :
    notMissing (V.map some) = V := by
  induction V with
  | nil => rfl
  | cons x xs ih => simp [ih]

/-- A slice with no missing entries is its list of plain values, boxed. -/
lemma eq_notMissing_map_some {xs : List RVal} (h : NoMissing xs) :
    xs = (notMissing xs).map some := by
  induction xs with
  | nil => rfl
  | cons x xs ih =>
    rcases x with _ | a
    · exact absurd rfl (h none (List.mem_cons_self _ _))
    · have := ih (fun y hy => h y (List.mem_cons_of_mem _ hy))
      simpa using this

lemma mem_notMissing {xs : List RVal} {a : ℝ} :
    a ∈ notMissing xs ↔ some a ∈ xs := by
  constructor
  · intro h
    obtain ⟨y, hy, hya⟩ := List.mem_filterMap.mp h
    rwa [show y = some a from hya] at hy
  · intro h
    exact List.mem_filterMap.mpr ⟨some a, h, rfl⟩

lemma nanmean_map_some (V : List ℝ) (h : V ≠ []) :
    nanmean (V.map some) = some (listMean V) := by
  simp [nanmean, h]

lemma nanstd_map_some (V : List ℝ) (h : V ≠ []) :
    nanstd (V.map some) = some (Real.sqrt (listVar V)) := by
  simp [nanstd, h]

lemma normFun_map_some (V : List ℝ) (h : V ≠ []) (a : ℝ) :
    normFun (V.map some) (some a) =
      some ((a - listMean V) / (Real.sqrt (listVar V) + eps)) := by
  simp [normFun, nanmean_map_some V h, nanstd_map_some V h]

/-! ## Statistics of plain lists of reals -/

lemma listVar_nonneg (l : List ℝ) : 0 ≤ listVar l := by
  apply div_nonneg _ (Nat.cast_nonneg _)
  apply List.sum_nonneg
  intro x hx
  obtain ⟨a, _, rfl⟩ := List.mem_map.mp hx
  positivity

lemma listMean_const {l : List ℝ} {c : ℝ} (hne : l ≠ [])
    (h : ∀ x ∈ l, x = c) : listMean l = c := by
  have hlen : (l.length : ℝ) ≠ 0 := by
    exact_mod_cast Nat.pos_iff_ne_zero.mp (List.length_pos.mpr hne)
  have hsum : l.sum = l.length * c := by
    rw [List.sum_eq_card_nsmul l c h]
    simp [nsmul_eq_mul]
  rw [listMean, hsum, mul_div_cancel_left₀ _ hlen]

lemma listVar_const {l : List ℝ} {c : ℝ} (hne : l ≠ [])
    (h : ∀ x ∈ l, x = c) : listVar l = 0 := by
  have hmap : l.map (fun x => (x - listMean l) ^ 2) = l.map (fun _ => 0) := by
    apply List.map_congr_left
    intro a ha
    rw [h a ha, listMean_const hne h, sub_self]
    ring
  rw [listVar, hmap]
  simp

lemma listSum_affine (V : List ℝ) (b s : ℝ) :
    (V.map (fun a => (a - b) / s)).sum = (V.sum - V.length * b) / s := by
  induction V with
  | nil => simp
  | cons x xs ih =>
    simp only [List.map_cons, List.sum_cons, ih, List.length_cons]
    rw [div_add_div_same]
    congr 1
    push_cast
    ring

lemma listMean_affine (V : List ℝ) (hV : V ≠ []) (b s : ℝ) :
    listMean (V.map (fun a => (a - b) / s)) = (listMean V - b) / s := by
  have hlen : (V.length : ℝ) ≠ 0 := by
    exact_mod_cast Nat.pos_iff_ne_zero.mp (List.length_pos.mpr hV)
  rw [listMean, listSum_affine, List.length_map, div_right_comm]
  congr 1
  rw [listMean, sub_div, mul_div_cancel_left₀ _ hlen]

lemma listVar_affine (V : List ℝ) (hV : V ≠ []) (b s : ℝ) :
    listVar (V.map (fun a => (a - b) / s)) = listVar V / s ^ 2 := by
  have hlen : (V.length : ℝ) ≠ 0 := by
    exact_mod_cast Nat.pos_iff_ne_zero.mp (List.length_pos.mpr hV)
  unfold listVar
  rw [List.length_map, listMean_affine V hV b s]
  have hmap : (V.map (fun a => (a - b) / s)).map
        (fun x => (x - (listMean V - b) / s) ^ 2) =
      V.map (fun a => ((a - listMean V) ^ 2) * (s ^ 2)⁻¹) := by
    rw [List.map_map]
    apply List.map_congr_left
    intro a _
    simp only [Function.comp]
    rw [div_sub_div_same, div_pow, div_eq_mul_inv]
    congr 2
    ring
  rw [hmap, List.sum_map_mul_right, ← div_eq_mul_inv, div_div, mul_comm,
    ← div_div]

lemma listMean_map_add (V : List ℝ) (hV : V ≠ []) (c : ℝ) :
    listMean (V.map (fun a => a + c)) = listMean V + c := by
  have h := listMean_affine V hV (-c) 1
  have hfun : (fun a : ℝ => (a - -c) / 1) = fun a : ℝ => a + c := by
    funext a
    ring
  rw [hfun] at h
  rw [h]
  ring

lemma listVar_map_add (V : List ℝ) (hV : V ≠ []) (c : ℝ) :
    listVar (V.map (fun a => a + c)) = listVar V := by
  have h := listVar_affine V hV (-c) 1
  have hfun : (fun a : ℝ => (a - -c) / 1) = fun a : ℝ => a + c := by
    funext a
    ring
  rw [hfun] at h
  rw [h]
  ring

/-! ## Statistics of a normalized fiber -/

lemma eps_pos : 0 < eps := by norm_num [eps]

lemma map_normFun_map_some (V : List ℝ) (hV : V ≠ []) :
    (V.map some).map (normFun (V.map some)) =
      (V.map (fun a =>
        (a - listMean V) / (Real.sqrt (listVar V) + eps))).map some := by
  rw [List.map_map, List.map_map]
  apply List.map_congr_left
  intro a _
  simp only [Function.comp_apply]
  exact normFun_map_some V hV a

/-- The mean of a fiber normalized by its own statistics is exactly `0`. -/
lemma nanmean_normFun (V : List ℝ) (hV : V ≠ []) :
    nanmean ((V.map some).map (normFun (V.map some))) = some 0 := by
  have hne : V.map (fun a =>
      (a - listMean V) / (Real.sqrt (listVar V) + eps)) ≠ [] := by
    simpa using hV
  rw [map_normFun_map_some V hV, nanmean_map_some _ hne,
    listMean_affine V hV _ _, sub_self, zero_div]

/-- The standard deviation of a fiber normalized by its own statistics
is exactly `σ / (σ + 1e-7)`, where `σ` is the fiber's standard
deviation. -/
lemma nanstd_normFun (V : List ℝ) (hV : V ≠ []) :
    nanstd ((V.map some).map (normFun (V.map some))) =
      some (Real.sqrt (listVar V) / (Real.sqrt (listVar V) + eps)) := by
  have hσ0 : 0 ≤ Real.sqrt (listVar V) := Real.sqrt_nonneg _
  have hden : 0 ≤ Real.sqrt (listVar V) + eps := by
    have := eps_pos
    linarith
  have hne : V.map (fun a =>
      (a - listMean V) / (Real.sqrt (listVar V) + eps)) ≠ [] := by
    simpa using hV
  rw [map_normFun_map_some V hV, nanstd_map_some _ hne,
    listVar_affine V hV (listMean V) (Real.sqrt (listVar V) + eps)]
  congr 1
  have hv : listVar V = Real.sqrt (listVar V) ^ 2 :=
    (Real.sq_sqrt (listVar_nonneg V)).symm
  nth_rewrite 1 [hv]
  rw [← div_pow, Real.sqrt_sq (div_nonneg hσ0 hden)]

/-! ## Evaluation helpers for concrete inputs -/

lemma finRange_two : List.finRange 2 = [0, 1] := by decide

lemma finRange_five : List.finRange 5 = [0, 1, 2, 3, 4] := by decide

lemma colList_two {n : ℕ} (X : Fin 2 → Fin n → RVal) (j : Fin n) :
    colList X j = [X 0 j, X 1 j] := by
  rw [colList, finRange_two]
  rfl

lemma colList_five {n : ℕ} (X : Fin 5 → Fin n → RVal) (j : Fin n) :
    colList X j = [X 0 j, X 1 j, X 2 j, X 3 j, X 4 j] := by
  rw [colList, finRange_five]
  rfl

lemma fiberAt_zero {m n : ℕ} (X : Fin m → Fin n → RVal)
    (i : Fin m) (j : Fin n) : fiberAt X 0 i j = colList X j := rfl

lemma fiber_no_missing {m n : ℕ} {X : Fin m → Fin n → RVal}
    (hX : ∀ i j, X i j ≠ none) (d : ℕ) (i : Fin m) (j : Fin n) :
    NoMissing (fiberAt X d i j) := by
  intro y hy
  obtain ⟨i', j', rfl⟩ := mem_fiberAt hy
  exact hX i' j'

lemma exists_some_of_ne_none {x : RVal} (h : x ≠ none) : ∃ a, x = some a := by
  cases x with
  | none => exact absurd rfl h
  | some a => exact ⟨a, rfl⟩

lemma notMissing_fiber_ne_nil {m n : ℕ} {X : Fin m → Fin n → RVal} {d : ℕ}
    {i : Fin m} {j : Fin n} {a : ℝ} (ha : X i j = some a) :
    notMissing (fiberAt X d i j) ≠ [] :=
  List.ne_nil_of_mem (mem_notMissing.mpr (ha ▸ mem_fiberAt_self X d i j))

/-- Mean of a centered two-point slice `[-e, e]`. -/
lemma listMean_pm (e : ℝ) : listMean [-e, e] = 0 := by
  norm_num [listMean]

/-- Variance of a centered two-point slice `[-e, e]`. -/
lemma listVar_pm (e : ℝ) : listVar [-e, e] = e ^ 2 := by
  norm_num [listVar, listMean]

lemma nanmean_pm (e : ℝ) : nanmean [some (-e), some e] = some 0 := by
  have h : ([some (-e), some e] : List RVal) = ([-e, e] : List ℝ).map some := rfl
  rw [h, nanmean_map_some _ (by simp), listMean_pm]

lemma nanstd_pm (e : ℝ) (he : 0 ≤ e) :
    nanstd [some (-e), some e] = some e := by
  have h : ([some (-e), some e] : List RVal) = ([-e, e] : List ℝ).map some := rfl
  rw [h, nanstd_map_some _ (by simp), listVar_pm, Real.sqrt_sq he]

/-! ## Claim theorems: the smoother -/

/-- Claim C2: for a 1-D array `X` without missing values and `1 ≤ w ≤ len X`,
`moving_average(X, w)` has length `len X - w + 1` and its `i`-th entry is
the mean of the window `X[i : i+w]`. -/
theorem moving_average_spec (X : List ℝ) (w : ℕ) (h1 : 1 ≤ w)
    (h2 : w ≤ X.length) :
    (moving_average (X.map some) w).length = X.length - w + 1 ∧
    moving_average (X.map some) w = (List.range (X.length - w + 1)).map
      (fun i => some (listMean ((X.drop i).take w))) := by
  have hlen : (X.map some).length = X.length := List.length_map X some
  have h2' : w ≤ (X.map some).length := by rwa [hlen]
  have main : moving_average (X.map some) w = (List.range (X.length - w + 1)).map
      (fun i => some (listMean ((X.drop i).take w))) := by
    rw [moving_average_eq _ w h2', hlen]
    apply List.map_congr_left
    intro i hi
    have hi' : i < X.length - w + 1 := List.mem_range.mp hi
    have hwin : ((X.drop i).take w).length = w := by
      rw [List.length_take, List.length_drop, min_eq_left (by omega)]
    have hds : ((X.map some).drop i).take w = ((X.drop i).take w).map some := by
      rw [← List.map_drop, ← List.map_take]
    rw [hds, nsum_map_some, ndiv_some_some]
    rw [listMean, hwin]
  refine ⟨?_, main⟩
  rw [main]
  simp

/-- Witness for C2 at the spec's scenario: `X = [1,2,3,4,5]`, `w = 3`
gives `[2, 3, 4]`. -/
theorem moving_average_spec_witness :
    moving_average ([(1:ℝ), 2, 3, 4, 5].map some) 3 = [some 2, some 3, some 4] := by
  have h := (moving_average_spec [(1:ℝ), 2, 3, 4, 5] 3 (by norm_num)
    (by norm_num)).2
  rw [h]
  norm_num [List.range_succ, listMean]

/-- Claim C6: a missing value anywhere in the window poisons that window's
output to missing. -/
theorem moving_average_nan_poisons (X : List RVal) (w i : ℕ) (h1 : 1 ≤ w)
    (h2 : w ≤ X.length) (hi : i < X.length - w + 1)
    (hnan : none ∈ (X.drop i).take w) :
    (moving_average X w)[i]? = some none := by
  rw [moving_average_eq X w h2, List.getElem?_map, List.getElem?_range hi]
  simp [nsum_eq_none_of_mem _ hnan]

/-- Witness for C6: `X = [1, NaN]`, `w = 2`: the only output is NaN. -/
theorem moving_average_nan_poisons_witness :
    (moving_average [some (1:ℝ), none] 2)[0]? = some none :=
  moving_average_nan_poisons [some 1, none] 2 0 (by norm_num) (by simp)
    (by simp) (by simp)

/-- Claim C10: a window of width 1 is the identity on non-empty inputs. -/
theorem moving_average_width_one (X : List RVal) (h : X ≠ []) :
    moving_average X 1 = X := by
  have h1 : 1 ≤ X.length := List.length_pos.mpr h
  rw [moving_average_eq X 1 h1, Nat.sub_add_cancel h1]
  apply List.ext_get
  · simp
  · intro k hk1 hk2
    simp only [List.get_eq_getElem, List.getElem_map, List.getElem_range]
    rw [List.drop_eq_getElem_cons hk2, List.take_succ_cons, List.take_zero]
    cases hx : X[k] with
    | none => simp
    | some a => simp

/-- Witness for C10 on `X = [1, 2]`. -/
theorem moving_average_width_one_witness :
    moving_average [some (1:ℝ), some 2] 1 = [some 1, some 2] :=
  moving_average_width_one [some 1, some 2] (by simp)

/-! ## Claim theorems: the normalizer -/

/-- Claim C7: a tabular input is first converted to the plain 2-D value
array via `to_numpy`, discarding the column labels (the result does not
depend on them), and the result coincides with the result on the plain
array; the return type of `zScore` is always the plain-array type, never
`DataFrame`. -/
theorem zScore_dataframe_converted {m n : ℕ} (labels labels' : Fin n → String)
    (values : Fin m → Fin n → RVal) (d : ℕ) :
    zScore (PyInput.dataframe ⟨labels, values⟩) d
        = zScoreArr (DataFrame.to_numpy ⟨labels, values⟩) d ∧
      DataFrame.to_numpy (⟨labels, values⟩ : DataFrame m n) = values ∧
      zScore (PyInput.dataframe ⟨labels, values⟩) d
        = zScore (PyInput.dataframe ⟨labels', values⟩) d ∧
      zScore (PyInput.dataframe ⟨labels, values⟩) d
        = zScore (PyInput.ndarray values) d :=
  ⟨rfl, rfl, rfl, rfl⟩

/-- Claim C3: for an array with missing entries and an in-range axis, the
output of `zScore` is missing exactly at the positions where the input
is missing (and is an actual number everywhere else). -/
theorem zScore_missing_iff {m n : ℕ} (X : Fin m → Fin n → RVal) (d : ℕ)
    (hd : d < 2) (hmiss : ∃ i j, X i j = none) (i : Fin m) (j : Fin n) :
    zScoreArr X d i j = none ↔ X i j = none := by
  constructor
  · intro h
    by_contra hne
    obtain ⟨a, ha⟩ := exists_some_of_ne_none hne
    have hnm : notMissing (fiberAt X d i j) ≠ [] := notMissing_fiber_ne_nil ha
    rw [show zScoreArr X d i j = normFun (fiberAt X d i j) (X i j) from rfl,
      ha] at h
    simp [normFun, nanmean, nanstd, hnm] at h
  · intro h
    rw [show zScoreArr X d i j = normFun (fiberAt X d i j) (X i j) from rfl, h]
    simp [normFun]

/-- Witness for C3 on the array with column `[NaN, 5]`: the output is
missing at the missing position. -/
theorem zScore_missing_iff_witness :
    zScoreArr missingArr 0 0 0 = none ↔ missingArr 0 0 = none :=
  zScore_missing_iff missingArr 0 (by norm_num)
    ⟨0, 0, by simp [missingArr]⟩ 0 0

/-- Claim C4: if every fiber of `X` along the in-range axis `d` holds a
single repeated non-missing value, then the divisor `nanstd + 1e-7` is a
strictly positive number (no division by zero) and the output is all
zeros. -/
theorem zScore_constant_fiber {m n : ℕ} (X : Fin m → Fin n → RVal) (d : ℕ)
    (hd : d < 2)
    (hconst : ∀ (i : Fin m) (j : Fin n), ∃ c : ℝ,
      ∀ y ∈ fiberAt X d i j, y = some c)
    (i : Fin m) (j : Fin n) :
    (∃ s, nadd (nanstd (fiberAt X d i j)) (some eps) = some s ∧ 0 < s) ∧
    zScoreArr X d i j = some 0 := by
  obtain ⟨c, hc⟩ := hconst i j
  have hmem : X i j ∈ fiberAt X d i j := mem_fiberAt_self X d i j
  have hXij : X i j = some c := hc _ hmem
  have hcmem : c ∈ notMissing (fiberAt X d i j) :=
    mem_notMissing.mpr (hXij ▸ hmem)
  have hne : notMissing (fiberAt X d i j) ≠ [] := List.ne_nil_of_mem hcmem
  have hall : ∀ x ∈ notMissing (fiberAt X d i j), x = c := by
    intro x hx
    exact Option.some_inj.mp (hc _ (mem_notMissing.mp hx))
  have hmean : nanmean (fiberAt X d i j) = some c := by
    rw [nanmean, if_neg hne, listMean_const hne hall]
  have hstd : nanstd (fiberAt X d i j) = some 0 := by
    rw [nanstd, if_neg hne, listVar_const hne hall, Real.sqrt_zero]
  refine ⟨⟨eps, by rw [hstd]; simp, eps_pos⟩, ?_⟩
  rw [show zScoreArr X d i j = normFun (fiberAt X d i j) (X i j) from rfl,
    normFun, hXij, hmean, hstd]
  simp

/-- Witness for C4 on the all-3 2×2 array. -/
theorem zScore_constant_fiber_witness :
    (∃ s, nadd (nanstd (fiberAt constArr 0 0 0)) (some eps) = some s ∧ 0 < s) ∧
    zScoreArr constArr 0 0 0 = some 0 :=
  zScore_constant_fiber constArr 0 (by norm_num)
    (fun i j => ⟨3, fun y hy => by
      obtain ⟨i', j', rfl⟩ := mem_fiberAt hy
      rfl⟩) 0 0

/-- Claim C1 (amended): on an array with no missing values and an in-range
axis `d`, every fiber of the output along `d` has mean exactly `0`
(hence within `1e-7` of `0`); its standard deviation is exactly
`σ / (σ + 1e-7)` where `σ ≥ 0` is the input fiber's standard deviation,
so it deviates from `1` by exactly `1e-7 / (σ + 1e-7)`, which is within
the `1e-7` tolerance whenever `σ ≥ 1 - 1e-7` (but not for smaller `σ`).
-/
theorem zScore_mean_zero_std_ratio {m n : ℕ} (X : Fin m → Fin n → RVal)
    (d : ℕ) (hd : d < 2) (hX : ∀ i j, X i j ≠ none)
    (i : Fin m) (j : Fin n) :
    nanmean (fiberAt (zScoreArr X d) d i j) = some 0 ∧
    ∃ σ, 0 ≤ σ ∧ nanstd (fiberAt X d i j) = some σ ∧
      nanstd (fiberAt (zScoreArr X d) d i j) = some (σ / (σ + eps)) ∧
      |σ / (σ + eps) - 1| = eps / (σ + eps) ∧
      (1 - eps ≤ σ → |σ / (σ + eps) - 1| ≤ eps) := by
  have hrep := eq_notMissing_map_some (fiber_no_missing hX d i j)
  set V := notMissing (fiberAt X d i j) with hVdef
  obtain ⟨a, ha⟩ := exists_some_of_ne_none (hX i j)
  have hVne : V ≠ [] := notMissing_fiber_ne_nil ha
  have hfib := fiberAt_zScoreArr X d i j
  rw [hfib, hrep]
  set σ := Real.sqrt (listVar V) with hσdef
  have hσ0 : 0 ≤ σ := Real.sqrt_nonneg _
  have hden : 0 < σ + eps := by
    have := eps_pos
    linarith
  have key : σ / (σ + eps) - 1 = -(eps / (σ + eps)) := by
    field_simp
  refine ⟨nanmean_normFun V hVne, σ, hσ0, nanstd_map_some V hVne,
    nanstd_normFun V hVne, ?_, ?_⟩
  · rw [key, abs_neg, abs_of_pos (div_pos eps_pos hden)]
  · intro hσ1
    rw [key, abs_neg, abs_of_pos (div_pos eps_pos hden)]
    rw [div_le_iff₀ hden]
    have h1 : 1 ≤ σ + eps := by linarith
    nlinarith [eps_pos]

/-- Witness for the amended C1 on the array with column `[-1, 1]`
(standard deviation exactly `1`). -/
theorem zScore_mean_zero_std_ratio_witness :
    nanmean (fiberAt (zScoreArr unitArr 0) 0 0 0) = some 0 ∧
    ∃ σ, 0 ≤ σ ∧ nanstd (fiberAt unitArr 0 0 0) = some σ ∧
      nanstd (fiberAt (zScoreArr unitArr 0) 0 0 0) = some (σ / (σ + eps)) ∧
      |σ / (σ + eps) - 1| = eps / (σ + eps) ∧
      (1 - eps ≤ σ → |σ / (σ + eps) - 1| ≤ eps) :=
  zScore_mean_zero_std_ratio unitArr 0 (by norm_num)
    (by
      intro i j
      unfold unitArr
      split <;> simp) 0 0

/-- Counterexample to C1 as stated: on the no-missing 2×1 array with
column `[-1e-7, 1e-7]` (standard deviation `1e-7`), the output column is
`[-1/2, 1/2]`, whose standard deviation `1/2` is not within `1e-7` of
`1`. -/
theorem zScore_std_not_always_near_one : ¬ meanStdWithinEpsClaim := by
  intro h
  have hnomiss : ∀ (i : Fin 2) (j : Fin 1), tinyArr i j ≠ none := by
    intro i j
    unfold tinyArr
    split <;> simp
  obtain ⟨μ, s, hμ, hs, habs, hs1⟩ :=
    h 2 1 tinyArr 0 (by norm_num) hnomiss 0 0
  have hfib : fiberAt tinyArr 0 0 0 = [some (-eps), some eps] := by
    rw [fiberAt_zero, colList_two]
    rfl
  have hmeanin : nanmean (fiberAt tinyArr 0 0 0) = some 0 := by
    rw [hfib]
    exact nanmean_pm eps
  have hstdin : nanstd (fiberAt tinyArr 0 0 0) = some eps := by
    rw [hfib]
    exact nanstd_pm eps (le_of_lt eps_pos)
  have hout : fiberAt (zScoreArr tinyArr 0) 0 0 0
      = [some (-(1 / 2)), some (1 / 2)] := by
    rw [fiberAt_zScoreArr]
    rw [show fiberAt tinyArr 0 0 0 = fiberAt tinyArr 0 0 0 from rfl]
    rw [hfib] at hmeanin hstdin ⊢
    simp only [List.map_cons, List.map_nil, normFun, hmeanin, hstdin,
      nsub_some_some, nadd_some_some, ndiv_some_some]
    norm_num [eps]
  rw [hout] at hs
  have hs' : nanstd [some (-(1 / 2 : ℝ)), some (1 / 2)] = some (1 / 2) :=
    nanstd_pm (1 / 2) (by norm_num)
  rw [hs'] at hs
  have hseq : s = 1 / 2 := (Option.some_inj.mp hs).symm
  rw [hseq] at hs1
  rw [show (1 : ℝ) / 2 - 1 = -(1 / 2) by norm_num, abs_neg,
    abs_of_pos (by norm_num : (0:ℝ) < 1 / 2)] at hs1
  norm_num [eps] at hs1

/-- Claim C5 (amended): on an array whose fibers along the in-range axis
`d` already have mean `0` and standard deviation `1`, `zScore` divides
every entry by `1 + 1e-7`: each non-missing entry `a` is mapped to
exactly `a / (1 + 1e-7)`, which is within `1e-7 · |a|` of `a` (a
relative, not absolute, `1e-7` tolerance). -/
theorem zScore_normalized_input_scaled {m n : ℕ} (X : Fin m → Fin n → RVal)
    (d : ℕ) (hd : d < 2)
    (hstat : ∀ (i : Fin m) (j : Fin n),
      nanmean (fiberAt X d i j) = some 0 ∧ nanstd (fiberAt X d i j) = some 1)
    (i : Fin m) (j : Fin n) (a : ℝ) (ha : X i j = some a) :
    zScoreArr X d i j = some (a / (1 + eps)) ∧
    |a / (1 + eps) - a| ≤ eps * |a| := by
  obtain ⟨hm, hs⟩ := hstat i j
  have h1 : (0:ℝ) < 1 + eps := by
    have := eps_pos
    linarith
  constructor
  · rw [show zScoreArr X d i j = normFun (fiberAt X d i j) (X i j) from rfl,
      normFun, ha, hm, hs]
    simp
  · have key : a / (1 + eps) - a = -(a * eps) / (1 + eps) := by
      field_simp
      ring
    rw [key, abs_div, abs_neg, abs_mul, abs_of_pos h1, abs_of_pos eps_pos,
      mul_comm (|a|) eps]
    exact div_le_self (mul_nonneg (le_of_lt eps_pos) (abs_nonneg a))
      (by linarith [eps_pos])

/-- Witness for the amended C5 on the array with column `[-1, 1]`. -/
theorem zScore_normalized_input_scaled_witness :
    zScoreArr unitArr 0 0 0 = some ((-1) / (1 + eps)) ∧
    |(-1) / (1 + eps) - (-1)| ≤ eps * |(-1 : ℝ)| :=
  zScore_normalized_input_scaled unitArr 0 (by norm_num)
    (by
      intro i j
      rw [fiberAt_zero, colList_two]
      exact ⟨nanmean_pm 1, nanstd_pm 1 (by norm_num)⟩) 0 0 (-1) rfl

/-- Counterexample to C5 as stated: the 5×1 array with column
`[2, -1/2, -1/2, -1/2, -1/2]` has mean `0` and standard deviation
exactly `1`, yet `zScore` moves the entry `2` to `2 / (1 + 1e-7)`,
which is farther than `1e-7` from `2`. -/
theorem zScore_not_idempotent_within_eps : ¬ idempotentWithinEpsClaim := by
  intro h
  have hcol : notMissing (colList spikeArr 0)
      = [2, -(1 / 2), -(1 / 2), -(1 / 2), -(1 / 2)] := by
    rw [colList_five]
    rfl
  have hmean : nanmean (colList spikeArr 0) = some 0 := by
    rw [nanmean, if_neg (by rw [hcol]; simp), hcol]
    norm_num [listMean]
  have hvar : listVar [(2:ℝ), -(1 / 2), -(1 / 2), -(1 / 2), -(1 / 2)] = 1 := by
    norm_num [listVar, listMean]
  have hstd : nanstd (colList spikeArr 0) = some 1 := by
    rw [nanstd, if_neg (by rw [hcol]; simp), hcol, hvar, Real.sqrt_one]
  have hstat : ∀ (i : Fin 5) (j : Fin 1),
      nanmean (fiberAt spikeArr 0 i j) = some 0 ∧
      nanstd (fiberAt spikeArr 0 i j) = some 1 := by
    intro i j
    rw [Fin.eq_zero j, fiberAt_zero]
    exact ⟨hmean, hstd⟩
  obtain ⟨b, hb, habs⟩ := h 5 1 spikeArr 0 (by norm_num) hstat 0 0 2 rfl
  have hval : zScoreArr spikeArr 0 0 0 = some (2 / (1 + eps)) := by
    rw [show zScoreArr spikeArr 0 0 0
        = normFun (fiberAt spikeArr 0 0 0) (spikeArr 0 0) from rfl,
      normFun, fiberAt_zero, hmean, hstd,
      show spikeArr 0 0 = some 2 from rfl]
    simp
  rw [hval] at hb
  have hbeq : b = 2 / (1 + eps) := (Option.some_inj.mp hb).symm
  rw [hbeq, abs_le] at habs
  obtain ⟨hlo, _⟩ := habs
  norm_num [eps] at hlo

/-- Claim C9: normalization is translation invariant: adding a constant
`c` to a no-missing array and normalizing along an in-range axis gives
exactly the same result as normalizing the original array. -/
theorem zScore_translation_invariant {m n : ℕ} (X : Fin m → Fin n → RVal)
    (d : ℕ) (c : ℝ) (hd : d < 2) (hX : ∀ i j, X i j ≠ none) :
    zScoreArr (addConst X c) d = zScoreArr X d := by
  funext i j
  have hfib : fiberAt (addConst X c) d i j
      = (fiberAt X d i j).map (fun x => nadd x (some c)) :=
    fiberAt_entrywise X (fun x => nadd x (some c)) d i j
  have hrep := eq_notMissing_map_some (fiber_no_missing hX d i j)
  set V := notMissing (fiberAt X d i j) with hVdef
  obtain ⟨a, ha⟩ := exists_some_of_ne_none (hX i j)
  have hVne : V ≠ [] := notMissing_fiber_ne_nil ha
  have hVne' : V.map (fun v => v + c) ≠ [] := by simpa using hVne
  have hmap : (fiberAt X d i j).map (fun x => nadd x (some c))
      = (V.map (fun v => v + c)).map some := by
    rw [hrep, List.map_map, List.map_map]
    apply List.map_congr_left
    intro v _
    simp [Function.comp]
  have hXc : addConst X c i j = some (a + c) := by
    rw [addConst, ha]
    rfl
  show normFun (fiberAt (addConst X c) d i j) (addConst X c i j)
      = normFun (fiberAt X d i j) (X i j)
  rw [hfib, hmap, hXc, ha, hrep, normFun_map_some _ hVne' (a + c),
    normFun_map_some V hVne a, listMean_map_add V hVne c,
    listVar_map_add V hVne c]
  congr 1
  ring

/-- Witness for C9: shifting the `[-1, 1]` column by `5` leaves the
normalized output unchanged. -/
theorem zScore_translation_invariant_witness :
    zScoreArr (addConst unitArr 5) 0 = zScoreArr unitArr 0 :=
  zScore_translation_invariant unitArr 0 5 (by norm_num)
    (by
      intro i j
      unfold unitArr
      split <;> simp)

end

end BUMP
